import Mathlib

/-!
Shallow embedding of `pycallgraphix/wrapper.py`: the `MethodCall` record, the
`SingletonForCallGraph` registry state and its methods, the decorator wrapper
`function_wrapper_for_node_storage` (split into its pre-call and post-call
halves), a call-tree execution semantics with exception propagation, the
node-assignment pass of `MethodChart.make_graphviz_chart`, and a two-thread
interleaving model of the wrapper for the concurrency claim.

Durations measured with `time.perf_counter()` (floats in the source) are
modelled as integer tick counts, an abstract numeric duration domain (floats
are not shallowly embeddable and no claim divides or rounds durations);
`pydot.Node` handles are modelled as opaque naturals.
Dictionary access that would raise `KeyError` in Python is modelled with
`Option` (`none` = the Python code raises).
-/

namespace PyCallGraphix

/-- Embeds the dataclass `MethodCall` (wrapper.py lines 162-168): a name and an
optional `pydot.Node` handle defaulting to `None`. Dataclass equality compares
all fields, hence the derived `DecidableEq` compares `name` and `node`. -/
structure MethodCall where
  name : String
  node : Option Nat := none
deriving DecidableEq, Repr

/-- Embeds one value of the `my_info` dictionary (wrapper.py lines 146-151):
keys `timer`, `callcounter`, `start`, `source_functions`. -/
structure InfoEntry where
  timer : ℤ
  callcounter : ℕ
  start : ℤ
  source_functions : List MethodCall
deriving DecidableEq, Repr

/-- Embeds the Python `dict` holding `my_info` as an association list. -/
abbrev InfoDict := List (String × InfoEntry)

/-- Dictionary lookup: `d[k]` returning `none` where Python raises `KeyError`. -/
def dictFind (d : InfoDict) (k : String) : Option InfoEntry :=
  match d with
  | [] => none
  | (k', v) :: rest => if k' = k then some v else dictFind rest k

/-- Dictionary assignment `d[k] = v`: overwrite the existing binding, else append. -/
def dictSet (d : InfoDict) (k : String) (v : InfoEntry) : InfoDict :=
  match d with
  | [] => [(k, v)]
  | (k', v') :: rest => if k' = k then (k, v) :: rest else (k', v') :: dictSet rest k v

/-- Embeds the mutable state of the `SingletonForCallGraph` instance
(wrapper.py lines 107-111). -/
structure RegistryState where
  my_list_all_functions : List MethodCall
  my_list_source_functions : List MethodCall
  my_info : InfoDict
deriving DecidableEq, Repr

/-- State of the singleton right after `__init__`: all collections empty. -/
def initState : RegistryState :=
  { my_list_all_functions := [], my_list_source_functions := [], my_info := [] }

/-- Embeds `SingletonForCallGraph.set_entry` (lines 113-115): `my_list.append(entry)`. -/
def set_entry (entry : MethodCall) (my_list : List MethodCall) : List MethodCall :=
  my_list ++ [entry]

/-- Embeds `SingletonForCallGraph.exist_entry` (lines 121-125):
`entry in my_list`, using `MethodCall` (dataclass) equality. -/
def exist_entry (entry : MethodCall) (my_list : List MethodCall) : Bool :=
  if entry ∈ my_list then true else false

/-- Embeds `SingletonForCallGraph.delete_entry` (lines 127-129):
`my_list.remove(entry)` removes the first element equal to `entry`. (Python
raises `ValueError` when `entry` is absent; every call site in the wrapper
guards the call with `exist_entry`, so the absent case never arises there.) -/
def delete_entry (entry : MethodCall) (my_list : List MethodCall) : List MethodCall :=
  match my_list with
  | [] => []
  | m :: rest => if m = entry then rest else m :: delete_entry entry rest

/-- Embeds `SingletonForCallGraph.edit_callcounter` (lines 136-138):
`my_info[entry.name]["callcounter"] += 1`; `none` models the `KeyError`. -/
def edit_callcounter (s : RegistryState) (entry : MethodCall) : Option RegistryState :=
  (dictFind s.my_info entry.name).map fun e =>
    { s with my_info := dictSet s.my_info entry.name ({ e with callcounter := e.callcounter + 1 }) }

/-- Embeds `SingletonForCallGraph.edit_timer` (lines 140-142):
`my_info[entry.name]["timer"] += timer`. -/
def edit_timer (s : RegistryState) (entry : MethodCall) (timer : ℤ) : Option RegistryState :=
  (dictFind s.my_info entry.name).map fun e =>
    { s with my_info := dictSet s.my_info entry.name ({ e with timer := e.timer + timer }) }

/-- Embeds `SingletonForCallGraph.set_source_functions` (lines 154-159): when
`my_list` is non-empty and its last element's name differs from `entry.name`,
append that last element to `my_info[entry.name]["source_functions"]`. -/
def set_source_functions (s : RegistryState) (entry : MethodCall)
    (my_list : List MethodCall) : Option RegistryState :=
  match my_list.getLast? with
  | none => some s
  | some lastCall =>
    if lastCall.name ≠ entry.name then
      match dictFind s.my_info entry.name with
      | some e =>
        some { s with my_info := dictSet s.my_info entry.name ({ e with source_functions := e.source_functions ++ [lastCall] }) }
      | none => none
    else some s

/-- Embeds `SingletonForCallGraph.create` (lines 144-152): store a fresh info
entry with `callcounter = 1` and `start = time.perf_counter()` (the `now`
argument models the clock reading), then run `set_source_functions`. -/
def create (s : RegistryState) (entry : MethodCall) (timer : ℤ) (now : ℤ)
    (my_list : List MethodCall) : Option RegistryState :=
  let s1 := { s with my_info := dictSet s.my_info entry.name ({ timer := timer, callcounter := 1, start := now, source_functions := [] }) }
  set_source_functions s1 entry my_list

/-- Embeds the pre-call half of `function_wrapper_for_node_storage`
(wrapper.py lines 22-46): build `MethodCall(name)` (node defaults to `None`),
then either increment the counter (if the record is in
`my_list_all_functions`) or create the info entry and append the record to
both lists, reading the source list for caller inference before the pushes. -/
def function_wrapper_enter (name : String) (now : ℤ) (s : RegistryState) :
    Option RegistryState :=
  let methodcall : MethodCall := { name := name }
  if exist_entry methodcall s.my_list_all_functions then
    edit_callcounter s methodcall
  else
    match create s methodcall 0 now s.my_list_source_functions with
    | none => none
    | some s1 =>
      let s2 := { s1 with my_list_all_functions := set_entry methodcall s1.my_list_all_functions }
      some { s2 with my_list_source_functions := set_entry methodcall s2.my_list_source_functions }

/-- Embeds the post-call half of `function_wrapper_for_node_storage`
(wrapper.py lines 48-63), reached only when `func` returned normally:
accumulate the elapsed milliseconds, then remove the record from
`my_list_source_functions` when present. -/
def function_wrapper_exit (name : String) (elapsed : ℤ) (s : RegistryState) :
    Option RegistryState :=
  let methodcall : MethodCall := { name := name }
  match edit_timer s methodcall elapsed with
  | none => none
  | some s1 =>
    if exist_entry methodcall s1.my_list_source_functions then
      some { s1 with my_list_source_functions := delete_entry methodcall s1.my_list_source_functions }
    else some s1

mutual

/-- Call tree of decorated invocations: a call's qualified name, the decorated
calls its body makes in order, whether the body raises after those calls, and
the measured elapsed milliseconds of this invocation. -/
inductive CallTree where
  | node (name : String) (body : CallForest) (raises : Bool) (elapsed : ℤ) : CallTree

/-- Ordered sequence of sibling decorated calls. -/
inductive CallForest where
  | nil : CallForest
  | cons (t : CallTree) (f : CallForest) : CallForest

end

mutual

/-- Executes one decorated invocation: the wrapper's pre-call half, the body's
decorated calls, and — only when the body completed without raising — the
post-call half. The returned flag is `false` when an exception is propagating;
the source has no `try/finally`, so a propagating exception skips
`edit_timer` and the source-list removal (wrapper.py lines 48-63). -/
def runTree (clk : ℤ) (t : CallTree) (s : RegistryState) :
    Option (RegistryState × Bool) :=
  match t with
  | .node name body raises elapsed =>
    match function_wrapper_enter name clk s with
    | none => none
    | some s1 =>
      match runForest clk body s1 with
      | none => none
      | some (s2, ok) =>
        if ok && !raises then
          match function_wrapper_exit name elapsed s2 with
          | none => none
          | some s3 => some (s3, true)
        else some (s2, false)

/-- Executes sibling calls in order; an exception propagating out of one call
aborts the remaining siblings. -/
def runForest (clk : ℤ) (f : CallForest) (s : RegistryState) :
    Option (RegistryState × Bool) :=
  match f with
  | .nil => some (s, true)
  | .cons t rest =>
    match runTree clk t s with
    | none => none
    | some (s1, ok) =>
      if ok then runForest clk rest s1 else some (s1, false)

end

/-- Names of the registered functions, in list order. -/
def allNames (s : RegistryState) : List String :=
  s.my_list_all_functions.map MethodCall.name

/-- Names currently on the source-function list (the active stack). -/
def srcNames (s : RegistryState) : List String :=
  s.my_list_source_functions.map MethodCall.name

/-- Keys of the `my_info` dictionary. -/
def infoKeys (s : RegistryState) : List String :=
  s.my_info.map Prod.fst

/-- Call counter recorded for a name (0 when the name has no entry). -/
def callcounterOf (s : RegistryState) (n : String) : ℕ :=
  match dictFind s.my_info n with
  | some e => e.callcounter
  | none => 0

/-- Cumulative timer recorded for a name (0 when the name has no entry). -/
def timerOf (s : RegistryState) (n : String) : ℤ :=
  match dictFind s.my_info n with
  | some e => e.timer
  | none => 0

/-- Name of the function a call tree invokes at its root. -/
def CallTree.rootName (t : CallTree) : String :=
  match t with
  | .node name _ _ _ => name

/-- Registry events performed by the wrapper: the pre-call half on entry to a
decorated call, and the post-call half when the call returns normally. -/
inductive Ev where
  | enter (name : String) : Ev
  | exited (name : String) (elapsed : ℤ) : Ev
deriving DecidableEq, Repr

/-- Effect of one wrapper event on the registry. -/
def evStep (clk : ℤ) (s : RegistryState) (e : Ev) : Option RegistryState :=
  match e with
  | .enter name => function_wrapper_enter name clk s
  | .exited name elapsed => function_wrapper_exit name elapsed s

/-- Runs a sequence of wrapper events. -/
def runEvents (clk : ℤ) (evs : List Ev) (s : RegistryState) : Option RegistryState :=
  match evs with
  | [] => some s
  | e :: rest =>
    match evStep clk s e with
    | none => none
    | some s1 => runEvents clk rest s1

mutual

/-- Wrapper events a call tree performs, with the flag recording whether the
call returned normally; mirrors the control flow of `runTree`. -/
def traceT (t : CallTree) : List Ev × Bool :=
  match t with
  | .node name body raises elapsed =>
    let p := traceF body
    if p.2 && !raises then (Ev.enter name :: (p.1 ++ [Ev.exited name elapsed]), true)
    else (Ev.enter name :: p.1, false)

/-- Wrapper events a forest of sibling calls performs; mirrors `runForest`. -/
def traceF (f : CallForest) : List Ev × Bool :=
  match f with
  | .nil => ([], true)
  | .cons t rest =>
    let p := traceT t
    if p.2 then
      let q := traceF rest
      (p.1 ++ q.1, q.2)
    else p

end

/-- Names of the enter events, in order: the invocation order of the run. -/
def enters (evs : List Ev) : List String :=
  evs.filterMap fun e =>
    match e with
    | .enter n => some n
    | .exited _ _ => none

/-- Names of the normally-completed calls, in completion order. -/
def exitNames (evs : List Ev) : List String :=
  evs.filterMap fun e =>
    match e with
    | .enter _ => none
    | .exited n _ => some n

/-- Total elapsed time of the normally-completed calls of a given name. -/
def exitSum (evs : List Ev) (n : String) : ℤ :=
  (evs.map fun e =>
    match e with
    | .enter _ => 0
    | .exited m t => if m = n then t else 0).sum

/-- Registration effect of one invocation on the list of registered names:
append the name when unseen, else leave the list unchanged. -/
def regStep (acc : List String) (n : String) : List String :=
  if n ∈ acc then acc else acc ++ [n]

/-- Registration effect of a sequence of invocations: the registered names
after processing each invoked name in order, keeping first occurrences. -/
def regFold (acc : List String) (l : List String) : List String :=
  l.foldl regStep acc

/-- Caller inference performed at first registration (wrapper.py lines
154-159): the last record of the active source list when it exists and bears
a different name, else no source. -/
def sourceInference (stack : List MethodCall) (name : String) : List MethodCall :=
  match stack.getLast? with
  | none => []
  | some m => if m.name ≠ name then [m] else []

/-- Invariant of the registry maintained by the wrapper: stored records carry
no node handle, registered names and info keys are duplicate-free and
correspond, and the source list holds a subset of the registered names. -/
def Inv (s : RegistryState) : Prop :=
  (∀ m ∈ s.my_list_all_functions, m.node = none) ∧
  (∀ m ∈ s.my_list_source_functions, m.node = none) ∧
  (allNames s).Nodup ∧
  (srcNames s).Nodup ∧
  (∀ n ∈ srcNames s, n ∈ allNames s) ∧
  (infoKeys s).Nodup ∧
  (∀ n ∈ infoKeys s, n ∈ allNames s) ∧
  (∀ n ∈ allNames s, n ∈ infoKeys s)

instance (s : RegistryState) : Decidable (Inv s) := by
  unfold Inv; infer_instance

/-- Position of the first record bearing a name, used as its node handle. -/
def indexOfName (l : List MethodCall) (n : String) : Option ℕ :=
  l.findIdx? fun m => m.name == n

/-- Gives a record the node handle of the first registered record of its name,
modelling that Python stores one shared object per name in a registry built by
the wrapper alone. -/
def retagNode (all : List MethodCall) (m : MethodCall) : MethodCall :=
  match indexOfName all m.name with
  | some i => { m with node := some i }
  | none => m

/-- Numbers a list of records with successive node handles. -/
def assignIdx (i : ℕ) (l : List MethodCall) : List MethodCall :=
  match l with
  | [] => []
  | m :: rest => { m with node := some i } :: assignIdx (i + 1) rest

/-- Embeds the node-assignment effect of `MethodChart.make_graphviz_chart`
(wrapper.py lines 194-218): the loop sets `methodcall.node` to a fresh
`pydot.Node` for every record of `my_list_all_functions`; because the wrapper
stores the same Python object for a name in every collection, records of the
same name elsewhere observe the assignment. The drawing output itself is an
external artifact and is not modelled. -/
def make_graphviz_chart_nodes (s : RegistryState) : RegistryState :=
  { my_list_all_functions := assignIdx 0 s.my_list_all_functions,
    my_list_source_functions :=
      s.my_list_source_functions.map (retagNode s.my_list_all_functions),
    my_info := s.my_info.map fun p =>
      (p.1, { p.2 with source_functions :=
        p.2.source_functions.map (retagNode s.my_list_all_functions) }) }

/-- Program counter of one thread executing the wrapper body for a call with
no nested decorated calls: each position is one atomic registry operation of
`function_wrapper_for_node_storage` (atomic per the interpreter; the source
takes no lock between them — the `Lock` in `SingletonMetaForCallGraph` guards
only instance construction, wrapper.py lines 81-89). -/
inductive TPos where
  | atCheck | atInc | atCreate | atPushAll | atPushSource | atTimer | atPopCheck | atPopDo | done
deriving DecidableEq, Repr

/-- Executes the atomic registry operation at one thread position, returning
the next position; `none` when the thread is finished. -/
def tstep (name : String) (clk elapsed : ℤ) (s : RegistryState) (p : TPos) :
    Option (RegistryState × TPos) :=
  let methodcall : MethodCall := { name := name }
  match p with
  | .atCheck =>
    some (s, if exist_entry methodcall s.my_list_all_functions then .atInc else .atCreate)
  | .atInc => (edit_callcounter s methodcall).map fun s' => (s', .atTimer)
  | .atCreate =>
    (create s methodcall 0 clk s.my_list_source_functions).map fun s' => (s', .atPushAll)
  | .atPushAll =>
    some ({ s with my_list_all_functions := set_entry methodcall s.my_list_all_functions }, .atPushSource)
  | .atPushSource =>
    some ({ s with my_list_source_functions := set_entry methodcall s.my_list_source_functions }, .atTimer)
  | .atTimer => (edit_timer s methodcall elapsed).map fun s' => (s', .atPopCheck)
  | .atPopCheck =>
    some (s, if exist_entry methodcall s.my_list_source_functions then .atPopDo else .done)
  | .atPopDo =>
    some ({ s with my_list_source_functions := delete_entry methodcall s.my_list_source_functions }, .done)
  | .done => none

/-- Interleaved execution of two threads both invoking the same decorated
function: the schedule picks which thread performs its next atomic registry
operation (`true` = second thread); a pick of a finished or failed thread
leaves the state unchanged. -/
def runSched (name : String) (clk elapsed : ℤ) :
    List Bool → RegistryState × TPos × TPos → RegistryState × TPos × TPos
  | [], st => st
  | b :: rest, (s, p0, p1) =>
    if b then
      match tstep name clk elapsed s p1 with
      | some (s', p1') => runSched name clk elapsed rest (s', p0, p1')
      | none => runSched name clk elapsed rest (s, p0, p1)
    else
      match tstep name clk elapsed s p0 with
      | some (s', p0') => runSched name clk elapsed rest (s', p0', p1)
      | none => runSched name clk elapsed rest (s, p0, p1)

theorem dictFind_dictSet_self (d : InfoDict) (k : String) (v : InfoEntry) :
    dictFind (dictSet d k v) k = some v := by
  induction d with
  | nil => simp [dictSet, dictFind]
  | cons p rest ih =>
    obtain ⟨k', v'⟩ := p
    by_cases hk : k' = k
    · simp [dictSet, dictFind, hk]
    · simp [dictSet, dictFind, hk, ih]

theorem dictFind_dictSet_ne (d : InfoDict) (k k' : String) (v : InfoEntry)
    (h : k' ≠ k) : dictFind (dictSet d k v) k' = dictFind d k' := by
  have h' : ¬ k = k' := fun hh => h hh.symm
  induction d with
  | nil => simp [dictSet, dictFind, h']
  | cons p rest ih =>
    obtain ⟨k0, v0⟩ := p
    by_cases hk : k0 = k
    · subst hk
      simp [dictSet, dictFind, h']
    · simp [dictSet, dictFind, hk, ih]

theorem dictFind_isSome_iff (d : InfoDict) (k : String) :
    (dictFind d k).isSome ↔ k ∈ d.map Prod.fst := by
  induction d with
  | nil => simp [dictFind]
  | cons p rest ih =>
    obtain ⟨k0, v0⟩ := p
    by_cases hk : k0 = k
    · simp [dictFind, hk]
    · have h' : ¬ k = k0 := fun hh => hk hh.symm
      simp [dictFind, hk, ih, h']

theorem dictFind_eq_none_iff (d : InfoDict) (k : String) :
    dictFind d k = none ↔ k ∉ d.map Prod.fst := by
  rw [← dictFind_isSome_iff, Option.isSome_iff_exists]
  cases dictFind d k <;> simp

theorem dictSet_keys (d : InfoDict) (k : String) (v : InfoEntry) :
    (dictSet d k v).map Prod.fst =
      if k ∈ d.map Prod.fst then d.map Prod.fst else d.map Prod.fst ++ [k] := by
  induction d with
  | nil => simp [dictSet]
  | cons p rest ih =>
    obtain ⟨k0, v0⟩ := p
    by_cases hk : k0 = k
    · subst hk
      simp [dictSet]
    · have h' : ¬ k = k0 := fun hh => hk hh.symm
      simp only [dictSet, if_neg hk, List.map_cons, ih]
      by_cases hm : k ∈ rest.map Prod.fst <;> simp [hm, h']

theorem mem_of_allnone (l : List MethodCall) (n : String)
    (h : ∀ m ∈ l, m.node = none) :
    ((⟨n, none⟩ : MethodCall) ∈ l) ↔ n ∈ l.map MethodCall.name := by
  constructor
  · intro hm
    exact List.mem_map.mpr ⟨⟨n, none⟩, hm, rfl⟩
  · intro hm
    obtain ⟨m, hm1, hm2⟩ := List.mem_map.mp hm
    have hnode := h m hm1
    obtain ⟨mn, mo⟩ := m
    cases hm2
    cases hnode
    exact hm1

theorem delete_entry_subset (e : MethodCall) (l : List MethodCall) :
    ∀ m ∈ delete_entry e l, m ∈ l := by
  induction l with
  | nil => simp [delete_entry]
  | cons m0 rest ih =>
    by_cases hm : m0 = e
    · simp only [delete_entry, if_pos hm]
      intro m hm2
      exact List.mem_cons_of_mem _ hm2
    · simp only [delete_entry, if_neg hm]
      intro m hm2
      rcases List.mem_cons.mp hm2 with h1 | h1
      · exact h1 ▸ List.mem_cons_self _ _
      · exact List.mem_cons_of_mem _ (ih m h1)

theorem map_name_delete_entry (n : String) (l : List MethodCall)
    (h : ∀ m ∈ l, m.node = none) :
    (delete_entry ⟨n, none⟩ l).map MethodCall.name =
      (l.map MethodCall.name).erase n := by
  induction l with
  | nil => simp [delete_entry]
  | cons m0 rest ih =>
    by_cases hm : m0 = (⟨n, none⟩ : MethodCall)
    · subst hm
      simp [delete_entry, List.erase_cons_head]
    · have hn0 : m0.name ≠ n := by
        intro hc
        apply hm
        have := h m0 (List.mem_cons_self _ _)
        obtain ⟨mn, mo⟩ := m0
        simp only at hc this
        cases hc; cases this; rfl
      simp only [delete_entry, if_neg hm, List.map_cons]
      rw [List.erase_cons_tail, ih (fun m hm2 => h m (List.mem_cons_of_mem _ hm2))]
      simp [hn0]

/-- Characterization of `create` as invoked by the wrapper: both lists are
untouched, the name's info entry is freshly written with counter 1, zero
timer, clock reading, and the inferred sources, and other entries keep their
values. -/
theorem create_spec (s : RegistryState) (name : String) (clk : ℤ) :
    ∃ s1, create s ⟨name, none⟩ 0 clk s.my_list_source_functions = some s1 ∧
      s1.my_list_all_functions = s.my_list_all_functions ∧
      s1.my_list_source_functions = s.my_list_source_functions ∧
      dictFind s1.my_info name =
        some ⟨0, 1, clk, sourceInference s.my_list_source_functions name⟩ ∧
      (∀ n, n ≠ name → dictFind s1.my_info n = dictFind s.my_info n) ∧
      infoKeys s1 =
        (if name ∈ infoKeys s then infoKeys s else infoKeys s ++ [name]) := by
  unfold create set_source_functions sourceInference
  cases hlast : s.my_list_source_functions.getLast? with
  | none =>
    refine ⟨_, rfl, rfl, rfl, ?_, ?_, ?_⟩
    · simp [dictFind_dictSet_self]
    · intro n hn
      simp [dictFind_dictSet_ne _ _ _ _ hn]
    · simp [infoKeys, dictSet_keys]
  | some lastCall =>
    by_cases hname : lastCall.name ≠ name
    · simp only [if_pos hname, dictFind_dictSet_self]
      refine ⟨_, rfl, rfl, rfl, ?_, ?_, ?_⟩
      · simp [dictFind_dictSet_self, hname]
      · intro n hn
        simp [dictFind_dictSet_ne _ _ _ _ hn]
      · simp only [infoKeys, dictSet_keys]
        by_cases hm : name ∈ s.my_info.map Prod.fst <;> simp [hm]
    · simp only [if_neg hname]
      refine ⟨_, rfl, rfl, rfl, ?_, ?_, ?_⟩
      · simp [dictFind_dictSet_self, hname]
      · intro n hn
        simp [dictFind_dictSet_ne _ _ _ _ hn]
      · simp [infoKeys, dictSet_keys]

theorem nodup_snoc {α : Type} (a : α) (l : List α) :
    (l ++ [a]).Nodup ↔ l.Nodup ∧ a ∉ l := by
  simp [List.nodup_append]

/-- Effect of the wrapper's pre-call half on a registry satisfying the
invariant: on a seen name only the counter is bumped; on first sight the
record is appended to both lists and a fresh info entry is written carrying
the inferred caller; timers, other entries' sources and start stamps are
untouched; the invariant is preserved. -/
theorem enter_spec (name : String) (clk : ℤ) (s s' : RegistryState)
    (hInv : Inv s) (h : function_wrapper_enter name clk s = some s') :
    Inv s' ∧
    s'.my_list_all_functions =
      (if name ∈ allNames s then s.my_list_all_functions
       else s.my_list_all_functions ++ [⟨name, none⟩]) ∧
    s'.my_list_source_functions =
      (if name ∈ allNames s then s.my_list_source_functions
       else s.my_list_source_functions ++ [⟨name, none⟩]) ∧
    (∀ n, callcounterOf s' n = callcounterOf s n + (if n = name then 1 else 0)) ∧
    (∀ n, timerOf s' n = timerOf s n) ∧
    (∀ n e, dictFind s.my_info n = some e →
      ∃ e', dictFind s'.my_info n = some e' ∧
        e'.source_functions = e.source_functions ∧ e'.start = e.start) ∧
    (name ∉ allNames s →
      dictFind s'.my_info name =
        some ⟨0, 1, clk, sourceInference s.my_list_source_functions name⟩) := by
  obtain ⟨hA, hB, hC, hD, hE, hF, hG, hH⟩ := hInv
  simp only [function_wrapper_enter] at h
  by_cases hmem : name ∈ allNames s
  · have hex : exist_entry ⟨name, none⟩ s.my_list_all_functions = true := by
      unfold exist_entry
      simp [(mem_of_allnone _ _ hA).mpr hmem]
    rw [hex] at h
    simp only [if_true, edit_callcounter] at h
    have hkey : name ∈ infoKeys s := hH name hmem
    have hsome : (dictFind s.my_info name).isSome :=
      (dictFind_isSome_iff _ _).mpr hkey
    cases hfind : dictFind s.my_info name with
    | none => rw [hfind] at hsome; simp at hsome
    | some e =>
      rw [hfind] at h
      simp only [Option.map_some'] at h
      injection h with h
      subst h
      have hkeys : infoKeys
          { s with my_info := dictSet s.my_info name ({ e with callcounter := e.callcounter + 1 }) } =
          infoKeys s := by
        show (dictSet s.my_info name _).map Prod.fst = s.my_info.map Prod.fst
        rw [dictSet_keys]
        simp only [infoKeys] at hkey
        rw [if_pos hkey]
      refine ⟨⟨hA, hB, hC, hD, hE, ?_, ?_, ?_⟩, ?_, ?_, ?_, ?_, ?_, ?_⟩
      · rw [hkeys]; exact hF
      · rw [hkeys]; exact hG
      · intro n hn; rw [hkeys]; exact hH n hn
      · rw [if_pos hmem]
      · rw [if_pos hmem]
      · intro n
        by_cases hn : n = name
        · subst hn
          simp [callcounterOf, dictFind_dictSet_self, hfind]
        · simp [callcounterOf, dictFind_dictSet_ne _ _ _ _ hn, hn]
      · intro n
        by_cases hn : n = name
        · subst hn
          simp [timerOf, dictFind_dictSet_self, hfind]
        · simp [timerOf, dictFind_dictSet_ne _ _ _ _ hn]
      · intro n e0 hfind0
        by_cases hn : n = name
        · subst hn
          rw [hfind0] at hfind
          injection hfind with hfind
          subst hfind
          exact ⟨_, dictFind_dictSet_self _ _ _, rfl, rfl⟩
        · exact ⟨e0, by rw [dictFind_dictSet_ne _ _ _ _ hn]; exact hfind0, rfl, rfl⟩
      · intro hc; exact absurd hmem hc
  · have hex : exist_entry ⟨name, none⟩ s.my_list_all_functions = false := by
      unfold exist_entry
      simp [(mem_of_allnone _ _ hA).not.mpr hmem]
    rw [hex] at h
    simp only [Bool.false_eq_true, if_false] at h
    obtain ⟨s1, hcr, hall1, hsrc1, hfind1, hother1, hkeys1⟩ := create_spec s name clk
    rw [hcr] at h
    injection h with h
    subst h
    have hnotkey : name ∉ infoKeys s := fun hc => hmem (hG name hc)
    have hnotsrc : name ∉ srcNames s := fun hc => hmem (hE name hc)
    have hkeys : infoKeys s1 = infoKeys s ++ [name] := by
      rw [hkeys1, if_neg hnotkey]
    refine ⟨⟨?_, ?_, ?_, ?_, ?_, ?_, ?_, ?_⟩, ?_, ?_, ?_, ?_, ?_, ?_⟩
    · intro m hm
      simp only [set_entry, hall1, List.mem_append, List.mem_singleton] at hm
      rcases hm with hm | hm
      · exact hA m hm
      · subst hm; rfl
    · intro m hm
      simp only [set_entry, hsrc1, List.mem_append, List.mem_singleton] at hm
      rcases hm with hm | hm
      · exact hB m hm
      · subst hm; rfl
    · simp only [allNames, set_entry, hall1, List.map_append, List.map_cons, List.map_nil]
      exact (nodup_snoc _ _).mpr ⟨hC, hmem⟩
    · simp only [srcNames, set_entry, hsrc1, List.map_append, List.map_cons, List.map_nil]
      exact (nodup_snoc _ _).mpr ⟨hD, hnotsrc⟩
    · intro n hn
      simp only [srcNames, set_entry, hsrc1, List.map_append, List.map_cons, List.map_nil,
        List.mem_append, List.mem_singleton] at hn
      simp only [allNames, set_entry, hall1, List.map_append, List.map_cons, List.map_nil,
        List.mem_append, List.mem_singleton]
      rcases hn with hn | hn
      · exact Or.inl (hE n hn)
      · exact Or.inr hn
    · rw [show infoKeys { s1 with
          my_list_all_functions := set_entry ⟨name, none⟩ s1.my_list_all_functions,
          my_list_source_functions := set_entry ⟨name, none⟩ s1.my_list_source_functions } =
          infoKeys s1 from rfl, hkeys]
      exact (nodup_snoc _ _).mpr ⟨hF, hnotkey⟩
    · intro n hn
      rw [show infoKeys { s1 with
          my_list_all_functions := set_entry ⟨name, none⟩ s1.my_list_all_functions,
          my_list_source_functions := set_entry ⟨name, none⟩ s1.my_list_source_functions } =
          infoKeys s1 from rfl, hkeys] at hn
      simp only [allNames, set_entry, hall1, List.map_append, List.map_cons, List.map_nil,
        List.mem_append, List.mem_singleton]
      rcases List.mem_append.mp hn with hn | hn
      · exact Or.inl (hG n hn)
      · exact Or.inr (List.mem_singleton.mp hn)
    · intro n hn
      simp only [allNames, set_entry, hall1, List.map_append, List.map_cons, List.map_nil,
        List.mem_append, List.mem_singleton] at hn
      rw [show infoKeys { s1 with
          my_list_all_functions := set_entry ⟨name, none⟩ s1.my_list_all_functions,
          my_list_source_functions := set_entry ⟨name, none⟩ s1.my_list_source_functions } =
          infoKeys s1 from rfl, hkeys]
      rcases hn with hn | hn
      · exact List.mem_append.mpr (Or.inl (hH n hn))
      · exact List.mem_append.mpr (Or.inr (List.mem_singleton.mpr hn))
    · simp [set_entry, hall1, hmem]
    · simp [set_entry, hsrc1, hmem]
    · intro n
      by_cases hn : n = name
      · subst hn
        have h0 : dictFind s.my_info n = none := (dictFind_eq_none_iff _ _).mpr hnotkey
        simp [callcounterOf, hfind1, h0]
      · simp [callcounterOf, hother1 n hn, hn]
    · intro n
      by_cases hn : n = name
      · subst hn
        have h0 : dictFind s.my_info n = none := (dictFind_eq_none_iff _ _).mpr hnotkey
        simp [timerOf, hfind1, h0]
      · simp [timerOf, hother1 n hn]
    · intro n e0 hfind0
      have hn : n ≠ name := by
        intro hc
        subst hc
        rw [(dictFind_eq_none_iff _ _).mpr hnotkey] at hfind0
        cases hfind0
      refine ⟨e0, ?_, rfl, rfl⟩
      show dictFind s1.my_info n = some e0
      rw [hother1 n hn]
      exact hfind0
    · intro _
      exact hfind1

/-- Effect of the wrapper's post-call half on a registry satisfying the
invariant: the elapsed time is added to the name's timer, the name's record is
removed from the source list (a no-op when absent), and everything else —
registered list, counters, sources, start stamps — is untouched. -/
theorem exit_spec (name : String) (elapsed : ℤ) (s s' : RegistryState)
    (hInv : Inv s) (h : function_wrapper_exit name elapsed s = some s') :
    Inv s' ∧
    s'.my_list_all_functions = s.my_list_all_functions ∧
    srcNames s' = (srcNames s).erase name ∧
    name ∉ srcNames s' ∧
    (∀ n, callcounterOf s' n = callcounterOf s n) ∧
    (∀ n, timerOf s' n = timerOf s n + (if n = name then elapsed else 0)) ∧
    (∀ n e, dictFind s.my_info n = some e →
      ∃ e', dictFind s'.my_info n = some e' ∧
        e'.source_functions = e.source_functions ∧ e'.start = e.start) := by
  obtain ⟨hA, hB, hC, hD, hE, hF, hG, hH⟩ := hInv
  simp only [function_wrapper_exit, edit_timer] at h
  cases hfind : dictFind s.my_info name with
  | none => rw [hfind] at h; cases h
  | some e =>
    rw [hfind] at h
    simp only [Option.map_some'] at h
    have hkey : name ∈ infoKeys s := (dictFind_isSome_iff _ _).mp (by rw [hfind]; rfl)
    have hkeysd : (dictSet s.my_info name ({ e with timer := e.timer + elapsed })).map Prod.fst =
        s.my_info.map Prod.fst := by
      rw [dictSet_keys]
      simp only [infoKeys] at hkey
      rw [if_pos hkey]
    have hkeys : ∀ t : RegistryState,
        t.my_info = dictSet s.my_info name ({ e with timer := e.timer + elapsed }) →
        infoKeys t = infoKeys s := by
      intro t ht
      show t.my_info.map Prod.fst = s.my_info.map Prod.fst
      rw [ht]
      exact hkeysd
    have hcc : ∀ n, callcounterOf { s with my_info := dictSet s.my_info name ({ e with timer := e.timer + elapsed }) } n = callcounterOf s n := by
      intro n
      by_cases hn : n = name
      · subst hn; simp [callcounterOf, dictFind_dictSet_self, hfind]
      · simp [callcounterOf, dictFind_dictSet_ne _ _ _ _ hn]
    have htm : ∀ n, timerOf { s with my_info := dictSet s.my_info name ({ e with timer := e.timer + elapsed }) } n = timerOf s n + (if n = name then elapsed else 0) := by
      intro n
      by_cases hn : n = name
      · subst hn; simp [timerOf, dictFind_dictSet_self, hfind]
      · simp [timerOf, dictFind_dictSet_ne _ _ _ _ hn, hn]
    have hpers : ∀ n e0, dictFind s.my_info n = some e0 →
        ∃ e', dictFind (dictSet s.my_info name ({ e with timer := e.timer + elapsed })) n = some e' ∧
          e'.source_functions = e0.source_functions ∧ e'.start = e0.start := by
      intro n e0 hfind0
      by_cases hn : n = name
      · subst hn
        rw [hfind0] at hfind
        injection hfind with hfind
        subst hfind
        exact ⟨_, dictFind_dictSet_self _ _ _, rfl, rfl⟩
      · exact ⟨e0, by rw [dictFind_dictSet_ne _ _ _ _ hn]; exact hfind0, rfl, rfl⟩
    by_cases hsmem : (⟨name, none⟩ : MethodCall) ∈ s.my_list_source_functions
    · have hex : exist_entry (⟨name, none⟩ : MethodCall) s.my_list_source_functions = true := by
        unfold exist_entry; simp [hsmem]
      rw [hex] at h
      simp only [if_true] at h
      injection h with h
      subst h
      have herase : srcNames { s with
          my_info := dictSet s.my_info name ({ e with timer := e.timer + elapsed }),
          my_list_source_functions := delete_entry ⟨name, none⟩ s.my_list_source_functions } =
          (srcNames s).erase name := by
        simp only [srcNames]
        exact map_name_delete_entry name _ hB
      refine ⟨⟨hA, ?_, hC, ?_, ?_, ?_, ?_, ?_⟩, rfl, herase, ?_, hcc, htm, hpers⟩
      · intro m hm
        exact hB m (delete_entry_subset _ _ m hm)
      · rw [herase]; exact hD.erase name
      · intro n hn
        rw [herase] at hn
        exact hE n (List.mem_of_mem_erase hn)
      · rw [hkeys _ rfl]; exact hF
      · intro n hn; rw [hkeys _ rfl] at hn; exact hG n hn
      · intro n hn; rw [hkeys _ rfl]; exact hH n hn
      · rw [herase]
        intro hc
        exact ((List.Nodup.mem_erase_iff hD).mp hc).1 rfl
    · have hex : exist_entry (⟨name, none⟩ : MethodCall) s.my_list_source_functions = false := by
        unfold exist_entry; simp [hsmem]
      rw [hex] at h
      simp only [Bool.false_eq_true, if_false] at h
      injection h with h
      subst h
      have hnmem : name ∉ srcNames s := fun hc => hsmem ((mem_of_allnone _ _ hB).mpr hc)
      have herase : (srcNames s).erase name = srcNames s := List.erase_of_not_mem hnmem
      refine ⟨⟨hA, hB, hC, hD, hE, ?_, ?_, ?_⟩, rfl, ?_, ?_, hcc, htm, hpers⟩
      · rw [hkeys _ rfl]; exact hF
      · intro n hn; rw [hkeys _ rfl] at hn; exact hG n hn
      · intro n hn; rw [hkeys _ rfl]; exact hH n hn
      · rw [herase]; rfl
      · exact hnmem

/-- Cumulative effect of a sequence of wrapper events on a registry satisfying
the invariant: the registered names grow by first occurrences of the entered
names, each counter counts that name's enter events, each timer accumulates
that name's completed elapsed times, and existing entries keep their source
lists and start stamps. -/
theorem runEvents_spec (clk : ℤ) (evs : List Ev) :
    ∀ s s', Inv s → runEvents clk evs s = some s' →
    Inv s' ∧
    allNames s' = regFold (allNames s) (enters evs) ∧
    (∀ n, callcounterOf s' n = callcounterOf s n + (enters evs).count n) ∧
    (∀ n, timerOf s' n = timerOf s n + exitSum evs n) ∧
    (∀ n e, dictFind s.my_info n = some e →
      ∃ e', dictFind s'.my_info n = some e' ∧
        e'.source_functions = e.source_functions ∧ e'.start = e.start) := by
  induction evs with
  | nil =>
    intro s s' hInv h
    simp only [runEvents] at h
    injection h with h
    subst h
    refine ⟨hInv, by simp [regFold, enters], ?_, ?_, ?_⟩
    · intro n; simp [enters]
    · intro n; simp [exitSum]
    · intro n e hf; exact ⟨e, hf, rfl, rfl⟩
  | cons e rest ih =>
    intro s s' hInv h
    simp only [runEvents] at h
    cases hstep : evStep clk s e with
    | none => rw [hstep] at h; cases h
    | some s1 =>
      rw [hstep] at h
      cases e with
      | enter name =>
        obtain ⟨hInv1, hall, _, hcc, htm, hpers, _⟩ :=
          enter_spec name clk s s1 hInv hstep
        obtain ⟨hInv', hall', hcc', htm', hpers'⟩ := ih s1 s' hInv1 h
        have hAllNames1 : allNames s1 = regStep (allNames s) name := by
          show List.map MethodCall.name s1.my_list_all_functions = _
          rw [hall]
          simp only [regStep]
          by_cases hmem : name ∈ allNames s
          · rw [if_pos hmem, if_pos hmem]
            rfl
          · rw [if_neg hmem, if_neg hmem]
            simp [allNames]
        refine ⟨hInv', ?_, ?_, ?_, ?_⟩
        · rw [hall', hAllNames1]
          simp [enters, regFold]
        · intro n
          rw [hcc' n, hcc n]
          by_cases hn : n = name
          · subst hn
            simp [enters, List.count_cons]
            omega
          · simp [enters, List.count_cons, hn]
        · intro n
          rw [htm' n, htm n]
          simp [exitSum]
        · intro n e0 hf
          obtain ⟨e1, hf1, hs1, hst1⟩ := hpers n e0 hf
          obtain ⟨e2, hf2, hs2, hst2⟩ := hpers' n e1 hf1
          exact ⟨e2, hf2, hs2.trans hs1, hst2.trans hst1⟩
      | exited name elapsed =>
        obtain ⟨hInv1, _, _, _, hcc, htm, hpers⟩ :=
          exit_spec name elapsed s s1 hInv hstep
        obtain ⟨hInv', hall', hcc', htm', hpers'⟩ := ih s1 s' hInv1 h
        have hAllNames1 : allNames s1 = allNames s := by
          obtain ⟨_, hlist, _⟩ := exit_spec name elapsed s s1 hInv hstep
          simp only [allNames]
          rw [hlist]
        refine ⟨hInv', ?_, ?_, ?_, ?_⟩
        · rw [hall', hAllNames1]
          simp [enters]
        · intro n
          rw [hcc' n, hcc n]
          simp [enters]
        · intro n
          rw [htm' n, htm n]
          by_cases hn : n = name
          · subst hn
            simp only [exitSum, List.map_cons, List.sum_cons, if_pos rfl]
            ring
          · have hn' : ¬ name = n := fun hc => hn hc.symm
            simp only [exitSum, List.map_cons, List.sum_cons, if_neg hn', if_neg hn]
            ring
        · intro n e0 hf
          obtain ⟨e1, hf1, hs1, hst1⟩ := hpers n e0 hf
          obtain ⟨e2, hf2, hs2, hst2⟩ := hpers' n e1 hf1
          exact ⟨e2, hf2, hs2.trans hs1, hst2.trans hst1⟩

theorem runEvents_append (clk : ℤ) (l1 l2 : List Ev) (s : RegistryState) :
    runEvents clk (l1 ++ l2) s =
      (match runEvents clk l1 s with
       | none => none
       | some s1 => runEvents clk l2 s1) := by
  induction l1 generalizing s with
  | nil => simp [runEvents]
  | cons e rest ih =>
    simp only [List.cons_append, runEvents]
    cases evStep clk s e with
    | none => rfl
    | some s1 => exact ih s1

mutual

/-- Running a call tree is running its wrapper-event trace, paired with the
completion flag of the trace. -/
theorem runTree_eq_events (clk : ℤ) (t : CallTree) (s : RegistryState) :
    runTree clk t s =
      (runEvents clk (traceT t).1 s).map (fun x => (x, (traceT t).2)) := by
  match t with
  | .node name body raises elapsed =>
    by_cases hcond : ((traceF body).2 && !raises) = true
    · simp only [runTree, traceT, hcond, if_true]
      cases henter : function_wrapper_enter name clk s with
      | none => simp [runEvents, evStep, henter]
      | some s1 =>
        simp only [runEvents, evStep, henter, runEvents_append]
        rw [runForest_eq_events clk body s1]
        cases hbody : runEvents clk (traceF body).1 s1 with
        | none => simp
        | some s2 =>
          simp only [Option.map_some', hcond, if_true]
          cases hexit : function_wrapper_exit name elapsed s2 with
          | none => simp [runEvents, evStep, hexit]
          | some s3 => simp [runEvents, evStep, hexit]
    · simp only [runTree, traceT, hcond, if_false]
      cases henter : function_wrapper_enter name clk s with
      | none => simp [runEvents, evStep, henter]
      | some s1 =>
        simp only [runEvents, evStep, henter]
        rw [runForest_eq_events clk body s1]
        cases hbody : runEvents clk (traceF body).1 s1 with
        | none => simp
        | some s2 =>
          simp [hcond]

/-- Running a forest of sibling calls is running its wrapper-event trace. -/
theorem runForest_eq_events (clk : ℤ) (f : CallForest) (s : RegistryState) :
    runForest clk f s =
      (runEvents clk (traceF f).1 s).map (fun x => (x, (traceF f).2)) := by
  match f with
  | .nil => simp [runForest, traceF, runEvents]
  | .cons t rest =>
    cases hp : (traceT t).2 with
    | true =>
      simp only [runForest, traceF, hp, if_true]
      rw [runTree_eq_events clk t s]
      cases htree : runEvents clk (traceT t).1 s with
      | none => simp [runEvents_append, htree]
      | some s1 =>
        simp only [Option.map_some', hp, if_true, runEvents_append, htree]
        exact runForest_eq_events clk rest s1
    | false =>
      simp only [runForest, traceF, hp, if_false]
      rw [runTree_eq_events clk t s]
      cases htree : runEvents clk (traceT t).1 s with
      | none => simp [htree]
      | some s1 => simp [htree, hp]

end

/-- Master characterization of a completed forest run from an invariant state:
invariant preservation, registered names, counters, timers, and persistence of
source lists and start stamps. -/
theorem runForest_spec (clk : ℤ) (F : CallForest) (s s' : RegistryState) (ok : Bool)
    (hInv : Inv s) (h : runForest clk F s = some (s', ok)) :
    Inv s' ∧
    allNames s' = regFold (allNames s) (enters (traceF F).1) ∧
    (∀ n, callcounterOf s' n = callcounterOf s n + (enters (traceF F).1).count n) ∧
    (∀ n, timerOf s' n = timerOf s n + exitSum (traceF F).1 n) ∧
    (∀ n e, dictFind s.my_info n = some e →
      ∃ e', dictFind s'.my_info n = some e' ∧
        e'.source_functions = e.source_functions ∧ e'.start = e.start) := by
  rw [runForest_eq_events] at h
  cases hre : runEvents clk (traceF F).1 s with
  | none => rw [hre] at h; cases h
  | some s1 =>
    rw [hre] at h
    simp only [Option.map_some'] at h
    injection h with h
    injection h with h1 h2
    subst h1
    exact runEvents_spec clk (traceF F).1 s _ hInv hre

/-- Schedule in which the first thread's wrapper body runs to completion
before the second thread starts. -/
def serializedSchedule : List Bool :=
  List.replicate 7 false ++ List.replicate 7 true

/-- Schedule in which both threads pass the membership check before either
thread registers the function. -/
def interleavedSchedule : List Bool :=
  [false, true, false, false, false, false, false, false,
   true, true, true, true, true, true]

/-- C1: the claim that the wrapper's check-then-act registration sequence is
atomic under a single global lock — so two threads first-invoking the same
function always leave exactly one entry and a combined call count of 2 — is
false of the code: the lock in `SingletonMetaForCallGraph` guards only
instance construction, and under the schedule in which both threads pass the
membership check first, both complete, the function is registered twice and
the combined call count is 1 (one increment is lost). -/
theorem C1_counterexample :
    (runSched "m.f" 0 1 interleavedSchedule
        (initState, TPos.atCheck, TPos.atCheck)).2 = (TPos.done, TPos.done) ∧
    (runSched "m.f" 0 1 interleavedSchedule
        (initState, TPos.atCheck, TPos.atCheck)).1.my_list_all_functions =
      [⟨"m.f", none⟩, ⟨"m.f", none⟩] ∧
    callcounterOf (runSched "m.f" 0 1 interleavedSchedule
        (initState, TPos.atCheck, TPos.atCheck)).1 "m.f" = 1 := by
  decide

/-- C1 (amended): no lock protects the wrapper's check-then-act sequence, so
the first-sight scenario is schedule-dependent: when the two registration
sequences are serialized the singleton holds exactly one entry with a
combined call count of 2, while the interleaved schedule double-registers and
loses an increment. -/
theorem C1_amended :
    ((runSched "m.f" 0 1 serializedSchedule
        (initState, TPos.atCheck, TPos.atCheck)).1.my_list_all_functions =
      [⟨"m.f", none⟩] ∧
     callcounterOf (runSched "m.f" 0 1 serializedSchedule
        (initState, TPos.atCheck, TPos.atCheck)).1 "m.f" = 2) ∧
    ¬ ((runSched "m.f" 0 1 interleavedSchedule
        (initState, TPos.atCheck, TPos.atCheck)).1.my_list_all_functions.length = 1 ∧
       callcounterOf (runSched "m.f" 0 1 interleavedSchedule
        (initState, TPos.atCheck, TPos.atCheck)).1 "m.f" = 2) := by
  decide

/-- C2: the claim that on every invocation the wrapper appends the record to
the active stack when no entry of that name is present is false of the code:
the push happens only in the first-registration branch, so on the second
invocation of an already-registered function the name is absent from the
active stack while the body executes. -/
theorem C2_counterexample :
    runTree 0 (CallTree.node "m.f" CallForest.nil false 1) initState =
      some (⟨[⟨"m.f", none⟩], [], [("m.f", ⟨1, 1, 0, []⟩)]⟩, true) ∧
    function_wrapper_enter "m.f" 0 ⟨[⟨"m.f", none⟩], [], [("m.f", ⟨1, 1, 0, []⟩)]⟩ =
      some ⟨[⟨"m.f", none⟩], [], [("m.f", ⟨1, 2, 0, []⟩)]⟩ ∧
    "m.f" ∉ srcNames ⟨[⟨"m.f", none⟩], [], [("m.f", ⟨1, 2, 0, []⟩)]⟩ := by
  decide

/-- C2 (amended): the wrapper appends the record to the active stack exactly
when the name is not yet registered in `my_list_all_functions` (first
registration); invocations of an already-registered name — recursive
re-entries included — leave the active stack unchanged, so no duplicate is
ever pushed but a non-first invocation is not placed on the stack either. -/
theorem C2_amended (name : String) (clk : ℤ) (s s' : RegistryState)
    (hInv : Inv s) (h : function_wrapper_enter name clk s = some s') :
    s'.my_list_source_functions =
      (if name ∈ allNames s then s.my_list_source_functions
       else s.my_list_source_functions ++ [⟨name, none⟩]) :=
  (enter_spec name clk s s' hInv h).2.2.1

theorem C2_witness :
    function_wrapper_enter "m.f" 0 initState =
      some ⟨[⟨"m.f", none⟩], [⟨"m.f", none⟩], [("m.f", ⟨0, 1, 0, []⟩)]⟩ ∧
    (⟨[⟨"m.f", none⟩], [⟨"m.f", none⟩],
        [("m.f", ⟨0, 1, 0, []⟩)]⟩ : RegistryState).my_list_source_functions =
      (if "m.f" ∈ allNames initState then initState.my_list_source_functions
       else initState.my_list_source_functions ++ [⟨"m.f", none⟩]) :=
  ⟨by decide, C2_amended "m.f" 0 initState
    ⟨[⟨"m.f", none⟩], [⟨"m.f", none⟩], [("m.f", ⟨0, 1, 0, []⟩)]⟩ (by decide) (by decide)⟩

/-- C3: the claim that after any call — normal return or exception — the
function's name is absent from the active stack is false of the code: there
is no `try/finally`, so when the wrapped function raises on the function's
first invocation, the cleanup is skipped and the name stays on the stack. -/
theorem C3_counterexample :
    runTree 0 (CallTree.node "m.f" CallForest.nil true 1) initState =
      some (⟨[⟨"m.f", none⟩], [⟨"m.f", none⟩], [("m.f", ⟨0, 1, 0, []⟩)]⟩, false) ∧
    "m.f" ∈ srcNames ⟨[⟨"m.f", none⟩], [⟨"m.f", none⟩], [("m.f", ⟨0, 1, 0, []⟩)]⟩ := by
  decide

/-- C3 (amended): after a call of a decorated function that returns normally,
the function's name is absent from the active stack; when the wrapped
function raises, the wrapper performs no cleanup and a first invocation
leaves the name on the stack. -/
theorem C3_amended (clk : ℤ) (t : CallTree) (s s' : RegistryState)
    (hInv : Inv s) (h : runTree clk t s = some (s', true)) :
    t.rootName ∉ srcNames s' := by
  cases t with
  | node name body raises elapsed =>
    simp only [runTree] at h
    cases henter : function_wrapper_enter name clk s with
    | none => rw [henter] at h; cases h
    | some s1 =>
      rw [henter] at h
      dsimp only at h
      cases hbody : runForest clk body s1 with
      | none => rw [hbody] at h; cases h
      | some p =>
        obtain ⟨s2, ok⟩ := p
        rw [hbody] at h
        dsimp only at h
        by_cases hcond : (ok && !raises) = true
        · rw [if_pos hcond] at h
          cases hexit : function_wrapper_exit name elapsed s2 with
          | none => rw [hexit] at h; cases h
          | some s3 =>
            rw [hexit] at h
            injection h with h
            injection h with h1 h2
            subst h1
            obtain ⟨hInv1, _⟩ := enter_spec name clk s s1 hInv henter
            obtain ⟨hInv2, _⟩ := runForest_spec clk body s1 s2 ok hInv1 hbody
            obtain ⟨_, _, _, hnot, _⟩ := exit_spec name elapsed s2 _ hInv2 hexit
            exact hnot
        · rw [if_neg hcond] at h
          injection h with h
          injection h with h1 h2
          cases h2

theorem C3_witness :
    runTree 0 (CallTree.node "m.f" CallForest.nil false 1) initState =
      some (⟨[⟨"m.f", none⟩], [], [("m.f", ⟨1, 1, 0, []⟩)]⟩, true) ∧
    (CallTree.node "m.f" CallForest.nil false 1).rootName ∉
      srcNames ⟨[⟨"m.f", none⟩], [], [("m.f", ⟨1, 1, 0, []⟩)]⟩ :=
  ⟨by decide, C3_amended 0 (CallTree.node "m.f" CallForest.nil false 1) initState
    ⟨[⟨"m.f", none⟩], [], [("m.f", ⟨1, 1, 0, []⟩)]⟩ (by decide) (by decide)⟩

/-- C4: the claim that elapsed time is accumulated even when the wrapped
function raises, the exception propagating only after the bookkeeping, is
false of the code: the timing line sits after the call with no `try/finally`,
so a raising call contributes nothing — here elapsed 5 leaves the timer 0 and
the run aborts before any post-call bookkeeping. -/
theorem C4_counterexample :
    runTree 0 (CallTree.node "m.f" CallForest.nil true 5) initState =
      some (⟨[⟨"m.f", none⟩], [⟨"m.f", none⟩], [("m.f", ⟨0, 1, 0, []⟩)]⟩, false) ∧
    timerOf ⟨[⟨"m.f", none⟩], [⟨"m.f", none⟩], [("m.f", ⟨0, 1, 0, []⟩)]⟩ "m.f" = 0 ∧
    (0 : ℤ) ≠ 5 := by
  decide

/-- C4 (amended): a function's cumulative timer equals the sum of the elapsed
times of its invocations that returned normally; an invocation whose body
raises contributes nothing, the exception propagating without the post-call
bookkeeping. -/
theorem C4_amended (clk : ℤ) (F : CallForest) (s' : RegistryState) (ok : Bool)
    (h : runForest clk F initState = some (s', ok)) (n : String) :
    timerOf s' n = exitSum (traceF F).1 n := by
  obtain ⟨_, _, _, htm, _⟩ := runForest_spec clk F initState s' ok (by decide) h
  rw [htm n]
  show timerOf initState n + _ = _
  simp [timerOf, initState, dictFind]

/-- Two sequential calls of one function with elapsed times 2 and 3. -/
def twoCallForest : CallForest :=
  CallForest.cons (CallTree.node "m.f" CallForest.nil false 2)
    (CallForest.cons (CallTree.node "m.f" CallForest.nil false 3) CallForest.nil)

theorem C4_witness :
    runForest 0 twoCallForest initState =
      some (⟨[⟨"m.f", none⟩], [], [("m.f", ⟨5, 2, 0, []⟩)]⟩, true) ∧
    timerOf ⟨[⟨"m.f", none⟩], [], [("m.f", ⟨5, 2, 0, []⟩)]⟩ "m.f" =
      exitSum (traceF twoCallForest).1 "m.f" :=
  ⟨by decide, C4_amended 0 twoCallForest
    ⟨[⟨"m.f", none⟩], [], [("m.f", ⟨5, 2, 0, []⟩)]⟩ true (by decide) "m.f"⟩

/-- C5: the claim that the call counter equals the number of invocations the
wrapper completed is false of the code: the counter is incremented in the
pre-call half, so an invocation whose body raises — which the wrapper never
completes (the event trace has no completion event and the run aborts) —
still reads a counter of 1. -/
theorem C5_counterexample :
    runTree 0 (CallTree.node "m.f" CallForest.nil true 1) initState =
      some (⟨[⟨"m.f", none⟩], [⟨"m.f", none⟩], [("m.f", ⟨0, 1, 0, []⟩)]⟩, false) ∧
    exitNames (traceT (CallTree.node "m.f" CallForest.nil true 1)).1 = [] ∧
    callcounterOf ⟨[⟨"m.f", none⟩], [⟨"m.f", none⟩], [("m.f", ⟨0, 1, 0, []⟩)]⟩ "m.f" = 1 := by
  decide

/-- C5 (amended): in every sequential execution history the call counter of a
name equals the number of invocations of that name the wrapper entered —
which equals the number completed when every call returns normally; in
particular N sequential non-recursive normal calls yield a count of N. -/
theorem C5_amended (clk : ℤ) (F : CallForest) (s' : RegistryState) (ok : Bool)
    (h : runForest clk F initState = some (s', ok)) (n : String) :
    callcounterOf s' n = (enters (traceF F).1).count n := by
  obtain ⟨_, _, hcc, _, _⟩ := runForest_spec clk F initState s' ok (by decide) h
  rw [hcc n]
  show callcounterOf initState n + _ = _
  simp [callcounterOf, initState, dictFind]

/-- Three sequential calls of one function. -/
def threeCallForest : CallForest :=
  CallForest.cons (CallTree.node "m.f" CallForest.nil false 1)
    (CallForest.cons (CallTree.node "m.f" CallForest.nil false 1)
      (CallForest.cons (CallTree.node "m.f" CallForest.nil false 1) CallForest.nil))

theorem C5_witness :
    runForest 0 threeCallForest initState =
      some (⟨[⟨"m.f", none⟩], [], [("m.f", ⟨3, 3, 0, []⟩)]⟩, true) ∧
    callcounterOf ⟨[⟨"m.f", none⟩], [], [("m.f", ⟨3, 3, 0, []⟩)]⟩ "m.f" =
      (enters (traceF threeCallForest).1).count "m.f" :=
  ⟨by decide, C5_amended 0 threeCallForest
    ⟨[⟨"m.f", none⟩], [], [("m.f", ⟨3, 3, 0, []⟩)]⟩ true (by decide) "m.f"⟩

/-- C6: in every history of decorated calls, `my_list_all_functions` holds
exactly one entry per distinct function name invoked, without duplicates, in
first-invocation order — the registered names are the first occurrences of the
entered names in invocation order. -/
theorem C6_theorem (clk : ℤ) (F : CallForest) (s' : RegistryState) (ok : Bool)
    (h : runForest clk F initState = some (s', ok)) :
    allNames s' = regFold [] (enters (traceF F).1) ∧ (allNames s').Nodup := by
  obtain ⟨hInv', hall, _, _, _⟩ := runForest_spec clk F initState s' ok (by decide) h
  refine ⟨?_, hInv'.2.2.1⟩
  rw [hall]
  rfl

/-- Recursive call of depth 3 of a single function. -/
def recursiveForest : CallForest :=
  CallForest.cons
    (CallTree.node "m.f"
      (CallForest.cons
        (CallTree.node "m.f"
          (CallForest.cons (CallTree.node "m.f" CallForest.nil false 1) CallForest.nil)
          false 1)
        CallForest.nil)
      false 1)
    CallForest.nil

theorem C6_witness :
    runForest 0 recursiveForest initState =
      some (⟨[⟨"m.f", none⟩], [], [("m.f", ⟨3, 3, 0, []⟩)]⟩, true) ∧
    allNames ⟨[⟨"m.f", none⟩], [], [("m.f", ⟨3, 3, 0, []⟩)]⟩ =
      regFold [] (enters (traceF recursiveForest).1) ∧
    (allNames ⟨[⟨"m.f", none⟩], [], [("m.f", ⟨3, 3, 0, []⟩)]⟩).Nodup :=
  ⟨by decide, C6_theorem 0 recursiveForest
    ⟨[⟨"m.f", none⟩], [], [("m.f", ⟨3, 3, 0, []⟩)]⟩ true (by decide)⟩

/-- C7: at first registration a function's `source_functions` is the
one-element list holding the record on top of the active stack when the stack
is non-empty and its top bears a different name, and the empty list
otherwise; afterwards the list is never modified by any further decorated
calls, whatever their callers. -/
theorem C7_theorem (s : RegistryState) (hInv : Inv s) :
    (∀ name clk s', name ∉ allNames s →
      function_wrapper_enter name clk s = some s' →
      ∃ e, dictFind s'.my_info name = some e ∧
        e.source_functions = sourceInference s.my_list_source_functions name) ∧
    (∀ clk F s' ok n e, dictFind s.my_info n = some e →
      runForest clk F s = some (s', ok) →
      ∃ e', dictFind s'.my_info n = some e' ∧
        e'.source_functions = e.source_functions) := by
  constructor
  · intro name clk s' hnot h
    obtain ⟨_, _, _, _, _, _, hG⟩ := enter_spec name clk s s' hInv h
    exact ⟨_, hG hnot, rfl⟩
  · intro clk F s' ok n e hfind h
    obtain ⟨_, _, _, _, hpers⟩ := runForest_spec clk F s s' ok hInv h
    obtain ⟨e', h1, h2, _⟩ := hpers n e hfind
    exact ⟨e', h1, h2⟩

/-- State of the registry while a first call of `m.a` is executing its body:
`m.a` is registered and sits on the active stack. -/
def midCallState : RegistryState :=
  ⟨[⟨"m.a", none⟩], [⟨"m.a", none⟩], [("m.a", ⟨0, 1, 0, []⟩)]⟩

theorem C7_witness :
    (∃ e, dictFind (⟨[⟨"m.a", none⟩, ⟨"m.b", none⟩], [⟨"m.a", none⟩, ⟨"m.b", none⟩],
        [("m.a", ⟨0, 1, 0, []⟩),
         ("m.b", ⟨0, 1, 0, [⟨"m.a", none⟩]⟩)]⟩ : RegistryState).my_info "m.b" = some e ∧
      e.source_functions = sourceInference midCallState.my_list_source_functions "m.b") ∧
    (∃ e', dictFind (⟨[⟨"m.a", none⟩, ⟨"m.b", none⟩], [⟨"m.a", none⟩],
        [("m.a", ⟨0, 1, 0, []⟩),
         ("m.b", ⟨1, 1, 0, [⟨"m.a", none⟩]⟩)]⟩ : RegistryState).my_info "m.a" = some e' ∧
      e'.source_functions = (⟨0, 1, 0, []⟩ : InfoEntry).source_functions) :=
  ⟨(C7_theorem midCallState (by decide)).1 "m.b" 0
      ⟨[⟨"m.a", none⟩, ⟨"m.b", none⟩], [⟨"m.a", none⟩, ⟨"m.b", none⟩],
        [("m.a", ⟨0, 1, 0, []⟩), ("m.b", ⟨0, 1, 0, [⟨"m.a", none⟩]⟩)]⟩
      (by decide) (by decide),
   (C7_theorem midCallState (by decide)).2 0
      (CallForest.cons (CallTree.node "m.b" CallForest.nil false 1) CallForest.nil)
      ⟨[⟨"m.a", none⟩, ⟨"m.b", none⟩], [⟨"m.a", none⟩],
        [("m.a", ⟨0, 1, 0, []⟩), ("m.b", ⟨1, 1, 0, [⟨"m.a", none⟩]⟩)]⟩
      true "m.a" ⟨0, 1, 0, []⟩ (by decide) (by decide)⟩

/-- C8: the claim that two `MethodCall` records are equal exactly when their
names are equal is false of the code: dataclass equality also compares the
`node` field, so two records of the same name differing in their rendering
handle are unequal. -/
theorem C8_counterexample :
    (MethodCall.mk "m.f" none).name = (MethodCall.mk "m.f" (some 0)).name ∧
    MethodCall.mk "m.f" none ≠ MethodCall.mk "m.f" (some 0) := by
  decide

/-- C8 (amended): two `MethodCall` records are equal exactly when both their
names and their rendering handles are equal — the `node` field participates
in dataclass equality. -/
theorem C8_amended (a b : MethodCall) :
    a = b ↔ a.name = b.name ∧ a.node = b.node := by
  cases a
  cases b
  simp

/-- Embedding of the test scenario `sum_recursive(1,1)` from
`test/test_store_funcs.py`: the outer call invokes `print_value`, then
recurses once; the inner call invokes `print_value` and returns. -/
def sumRecursiveCall : CallTree :=
  CallTree.node "test_store_funcs.sum_recursive"
    (CallForest.cons (CallTree.node "test_store_funcs.print_value" CallForest.nil false 1)
      (CallForest.cons
        (CallTree.node "test_store_funcs.sum_recursive"
          (CallForest.cons
            (CallTree.node "test_store_funcs.print_value" CallForest.nil false 1)
            CallForest.nil)
          false 1)
        CallForest.nil))
    false 1

/-- Registry after the `sum_recursive(1,1)` scenario completes. -/
def sumRecursiveResult : RegistryState :=
  ⟨[⟨"test_store_funcs.sum_recursive", none⟩, ⟨"test_store_funcs.print_value", none⟩],
   [],
   [("test_store_funcs.sum_recursive", ⟨2, 2, 0, []⟩),
    ("test_store_funcs.print_value",
      ⟨2, 2, 0, [⟨"test_store_funcs.sum_recursive", none⟩]⟩)]⟩

/-- C9: the sequential call `sum_recursive(1,1)` — one recursion level, with
the sibling `print_value` invoked at each of the two levels — leaves exactly
the two distinct entries `sum_recursive` and `print_value` in
`my_list_all_functions`, each with a call counter of 2. -/
theorem C9_theorem :
    runTree 0 sumRecursiveCall initState = some (sumRecursiveResult, true) ∧
    allNames sumRecursiveResult =
      ["test_store_funcs.sum_recursive", "test_store_funcs.print_value"] ∧
    callcounterOf sumRecursiveResult "test_store_funcs.sum_recursive" = 2 ∧
    callcounterOf sumRecursiveResult "test_store_funcs.print_value" = 2 := by
  decide

/-- C10: once every stored record of `my_list_all_functions` carries a node
handle (as after `make_graphviz_chart`), a later invocation of a registered
function builds a fresh record with `node = None` that fails the membership
check, so the function is re-registered: a duplicate entry is appended (its
name now occurs at least twice) and its statistics entry is recreated with
call counter 1 and timer 0, discarding the accumulated values. -/
theorem C10_theorem (s : RegistryState) (name : String) (clk : ℤ) (e : InfoEntry)
    (hnodes : ∀ m ∈ s.my_list_all_functions, m.node ≠ none)
    (hmem : name ∈ allNames s)
    (_hfound : dictFind s.my_info name = some e) :
    ∃ s', function_wrapper_enter name clk s = some s' ∧
      s'.my_list_all_functions = s.my_list_all_functions ++ [⟨name, none⟩] ∧
      2 ≤ (allNames s').count name ∧
      ∃ e', dictFind s'.my_info name = some e' ∧
        e'.callcounter = 1 ∧ e'.timer = 0 := by
  have hnotm : (⟨name, none⟩ : MethodCall) ∉ s.my_list_all_functions := fun hc =>
    hnodes _ hc rfl
  have hex : exist_entry ⟨name, none⟩ s.my_list_all_functions = false := by
    unfold exist_entry
    simp [hnotm]
  obtain ⟨s1, hcr, hall1, hsrc1, hfind1, _, _⟩ := create_spec s name clk
  refine ⟨⟨set_entry ⟨name, none⟩ s1.my_list_all_functions,
      set_entry ⟨name, none⟩ s1.my_list_source_functions, s1.my_info⟩, ?_, ?_, ?_, ?_⟩
  · simp only [function_wrapper_enter]
    rw [hex]
    simp only [Bool.false_eq_true, if_false, hcr]
  · show set_entry ⟨name, none⟩ s1.my_list_all_functions = _
    rw [hall1]
    rfl
  · show 2 ≤ (List.map MethodCall.name
      (set_entry ⟨name, none⟩ s1.my_list_all_functions)).count name
    rw [hall1]
    have h1 : 0 < (List.map MethodCall.name s.my_list_all_functions).count name :=
      List.count_pos_iff.mpr hmem
    simp only [set_entry, List.map_append, List.map_cons, List.map_nil,
      List.count_append, List.count_singleton, beq_self_eq_true, if_true]
    omega
  · exact ⟨_, hfind1, rfl, rfl⟩

theorem C10_witness :
    make_graphviz_chart_nodes ⟨[⟨"m.f", none⟩], [], [("m.f", ⟨1, 1, 0, []⟩)]⟩ =
      ⟨[⟨"m.f", some 0⟩], [], [("m.f", ⟨1, 1, 0, []⟩)]⟩ ∧
    ∃ s', function_wrapper_enter "m.f" 0
        ⟨[⟨"m.f", some 0⟩], [], [("m.f", ⟨1, 1, 0, []⟩)]⟩ = some s' ∧
      s'.my_list_all_functions =
        (⟨[⟨"m.f", some 0⟩], [], [("m.f", ⟨1, 1, 0, []⟩)]⟩ :
          RegistryState).my_list_all_functions ++ [⟨"m.f", none⟩] ∧
      2 ≤ (allNames s').count "m.f" ∧
      ∃ e', dictFind s'.my_info "m.f" = some e' ∧
        e'.callcounter = 1 ∧ e'.timer = 0 :=
  ⟨by decide, C10_theorem ⟨[⟨"m.f", some 0⟩], [], [("m.f", ⟨1, 1, 0, []⟩)]⟩ "m.f" 0
    ⟨1, 1, 0, []⟩ (by decide) (by decide) (by decide)⟩

end PyCallGraphix
